import Mathlib

set_option maxRecDepth 8000
set_option maxHeartbeats 1000000

/-!
Verification of the ML-surrogate transformer stack of the
Intrinsic_Resonance_Holography repository (`src/ml_surrogates`).

The Python source (numpy, no deep-learning framework) is shallowly embedded:
tensors become `List (List ℚ)` (lists of rows), fallible numpy operations
(index errors, shape checks) become `Except String`, and the transcendental
functions used by the source (`np.exp`, `np.sqrt`, `np.sin`, `np.cos`,
`np.log`) are abstracted into a `Numerics` parameter so that every definition
stays executable; theorems that depend on analytic facts (e.g. positivity of
`exp`) take them as hypotheses on the `Numerics` instance.  Random weight
initialisation (`np.random.randn` in the constructors) is replaced by
explicitly supplied weight tensors, mirroring the design note of the spec.
-/

/-- Models the transcendental primitives the numpy code uses.  `expq`, `sqrtq`,
`sinq`, `cosq` stand for `np.exp`, `np.sqrt`, `np.sin`, `np.cos`; `logC`
stands for the constant `np.log(10000.0)` of the positional encoding. -/
structure Numerics where
  expq : ℚ → ℚ
  sqrtq : ℚ → ℚ
  sinq : ℚ → ℚ
  cosq : ℚ → ℚ
  logC : ℚ
deriving Inhabited

/-- Dot product of two rational vectors (`np.dot` on 1-D arrays; numpy would
require equal lengths, our uses always have them). -/
def dot (u v : List ℚ) : ℚ := (List.zipWith (· * ·) u v).sum

/-- Element-wise sum of two vectors (numpy `+` on 1-D arrays). -/
def vadd (u v : List ℚ) : List ℚ := List.zipWith (· + ·) u v

/-- Scalar multiple of a vector. -/
def scale (c : ℚ) (v : List ℚ) : List ℚ := v.map (fun x => c * x)

/-- Element-wise ReLU, `np.maximum(0, x)`. -/
def relu (v : List ℚ) : List ℚ := v.map (fun x => max 0 x)

/-- Row-wise matrix addition (numpy `+` on 2-D arrays). -/
def madd (a b : List (List ℚ)) : List (List ℚ) := List.zipWith vadd a b

/-- `x · W + b` where `W` is stored as its list of columns (so the result
length is the number of output features) and `b` is the bias. -/
def linearRow (cols : List (List ℚ)) (b : List ℚ) (x : List ℚ) : List ℚ :=
  List.zipWith (fun c bi => dot x c + bi) cols b

/-- `x · W` with `W` stored as its list of columns; models `np.dot(x, W)`. -/
def matVec (cols : List (List ℚ)) (x : List ℚ) : List ℚ := cols.map (dot x)

/-- Maximum entry of a list (`np.max`; rows are nonempty in every use). -/
def maxList (l : List ℚ) : ℚ := l.foldl max (l.headD 0)

/-- Numerically-stable softmax of one row: subtract the row maximum, apply the
(abstracted) exponential, normalise by the sum. -/
def softmaxRow (E : ℚ → ℚ) (r : List ℚ) : List ℚ :=
  let m := maxList r
  let ex := r.map (fun x => E (x - m))
  ex.map (fun x => x / ex.sum)

/-- Layer normalisation of one row: `(x - mean) / (std + eps)` with
`std = sqrt(mean((x - mean)^2))` (population std, as `np.std`) and
`eps = 1e-6`. -/
def layerNormRow (env : Numerics) (r : List ℚ) : List ℚ :=
  let n : ℚ := r.length
  let m := r.sum / n
  let v := (r.map (fun x => (x - m) ^ 2)).sum / n
  r.map (fun x => (x - m) / (env.sqrtq v + 1 / 1000000))

/-- Row-wise layer normalisation of a matrix. -/
def layerNormMat (env : Numerics) (x : List (List ℚ)) : List (List ℚ) :=
  x.map (layerNormRow env)

/-- Shape of a list-of-rows tensor, as numpy would infer it from the data
(an empty list of rows gets width 0). -/
def listShape (m : List (List ℚ)) : ℕ × ℕ := (m.length, (m.headD []).length)

/-- Monadic map over a list in the `Except` monad: the loop shape used by the
Python code (process items in order, the first raised exception aborts). -/
def exMap (f : α → Except String β) : List α → Except String (List β)
  | [] => .ok []
  | a :: as =>
    match f a with
    | .error e => .error e
    | .ok b =>
      match exMap f as with
      | .error e => .error e
      | .ok bs => .ok (b :: bs)

/-- Sequencing in the `Except` monad (a raised exception propagates). -/
def exBind (x : Except String α) (f : α → Except String β) : Except String β :=
  match x with
  | .error e => .error e
  | .ok a => f a

/-! ## Data model: `engines/holographic_state.py` -/

/-- `SCALE_DIFF_TOLERANCE = 1e-12`: minimum scale difference below which the
finite-difference beta derivation returns exactly zero. -/
def scaleDiffTolerance : ℚ := 1 / 1000000000000

/-- `CouplingState`: the point in coupling space at a given RG scale.
`level` is an integer (`-1` is used as a marker for predicted fixed points). -/
structure CouplingState where
  lambdaTilde : ℚ
  gammaTilde : ℚ
  muTilde : ℚ
  k : ℚ
  level : ℤ := 0
deriving DecidableEq, Repr

instance : Inhabited CouplingState := ⟨⟨0, 0, 0, 0, 0⟩⟩

/-- `CouplingState.to_array`: the 4-vector `(λ̃, γ̃, μ̃, k)`. -/
def CouplingState.toArray (c : CouplingState) : List ℚ :=
  [c.lambdaTilde, c.gammaTilde, c.muTilde, c.k]

/-- `HolographicState`: trajectory of coupling states through RG flow.  The
Python `metadata` dict's `beta_<level>` entries become the `betas`
association list (newest first, as dict insertion overwrites). -/
structure HolographicState where
  trajectory : List CouplingState
  fixedPoint : Option CouplingState
  action : Option ℚ
  betas : List (ℕ × (ℚ × ℚ × ℚ))
deriving DecidableEq, Repr

/-- `HolographicState.__init__`: start from the supplied initial coupling
state, or the default `(10, 10, 10, k_initial, 0)` state. -/
def mkHolographicState (initialCouplings : Option CouplingState)
    (kInitial : ℚ) : HolographicState :=
  { trajectory := [initialCouplings.getD
      { lambdaTilde := 10, gammaTilde := 10, muTilde := 10, k := kInitial,
        level := 0 }]
    fixedPoint := none
    action := none
    betas := [] }

/-- `HolographicState.add_rg_step`: overwrite the new state's `level` with the
current trajectory length, append it, and record beta functions (when given)
under that level. -/
def addRgStep (s : HolographicState) (newCouplings : CouplingState)
    (betaFunctions : Option (ℚ × ℚ × ℚ)) : HolographicState :=
  let lvl := s.trajectory.length
  let c := { newCouplings with level := (lvl : ℤ) }
  { s with
    trajectory := s.trajectory ++ [c]
    betas :=
      match betaFunctions with
      | some b => (lvl, b) :: s.betas
      | none => s.betas }

/-- The dict returned by `HolographicState.to_graph_representation` (its
`num_nodes` entry is the trajectory length). -/
structure GraphRep where
  nodeFeatures : List (List ℚ)
  edgeFeatures : List (List ℚ)
  adjacency : List (ℤ × ℤ)
  numNodes : ℕ
deriving DecidableEq, Repr

/-- `HolographicState.to_graph_representation`: nodes are the RG steps; each
consecutive pair is linked by an edge whose feature is the recorded beta
triple or, when missing, the guarded finite difference. -/
def toGraphRepresentation (s : HolographicState) : GraphRep :=
  let numSteps := s.trajectory.length
  { nodeFeatures := s.trajectory.map CouplingState.toArray
    edgeFeatures := (List.range (numSteps - 1)).map (fun i =>
      match s.betas.lookup (i + 1) with
      | some b => [b.1, b.2.1, b.2.2]
      | none =>
        let curr := s.trajectory.getD (i + 1) default
        let prev := s.trajectory.getD i default
        let dk := curr.k - prev.k
        if |dk| > scaleDiffTolerance then
          [(curr.lambdaTilde - prev.lambdaTilde) / dk,
           (curr.gammaTilde - prev.gammaTilde) / dk,
           (curr.muTilde - prev.muTilde) / dk]
        else [0, 0, 0])
    adjacency := (List.range (numSteps - 1)).map (fun (i : ℕ) => ((i : ℤ), (i : ℤ) + 1))
    numNodes := numSteps }

/-- Shape of the `edge_features` array: `np.array(edge_features)` when edges
exist (each row has 3 entries), else the explicit `np.array([]).reshape(0, 3)`. -/
def edgeShapeOf (g : GraphRep) : ℕ × ℕ :=
  if g.edgeFeatures.isEmpty then (0, 3)
  else (g.edgeFeatures.length, (g.edgeFeatures.headD []).length)

/-- Shape of the `adjacency` array: `np.array(adjacency)` when edges exist
(rows `[i, i+1]`), else the explicit `np.array([]).reshape(0, 2)`. -/
def adjShapeOf (g : GraphRep) : ℕ × ℕ :=
  if g.adjacency.isEmpty then (0, 2) else (g.adjacency.length, 2)

/-! ## Attention modules: `models/attention_modules.py` -/

/-- Leaky ReLU as the source writes it: `np.maximum(0.01 * x, x)`. -/
def leakyRelu (x : ℚ) : ℚ := max (1 / 100 * x) x

/-- numpy integer indexing into an axis of length `n`: indices in `[0, n)` are
taken as-is, indices in `[-n, 0)` wrap around, anything else raises
`IndexError`. -/
def resolveIdx (n : ℕ) (i : ℤ) : Except String ℕ :=
  if 0 ≤ i ∧ i < (n : ℤ) then .ok i.toNat
  else if -(n : ℤ) ≤ i ∧ i < 0 then .ok ((n : ℤ) + i).toNat
  else .error "index out of bounds for axis 0"

/-- Weights of a `GraphAttention` module: node/edge projections (stored as
lists of columns) and the per-head attention vectors `a`. -/
structure GATWeights where
  nodeDim : ℕ
  edgeDim : ℕ
  numHeads : ℕ
  Wnode : List (List ℚ)
  Wedge : List (List ℚ)
  a : List (List ℚ)
deriving DecidableEq, Repr

/-- `GraphAttention.__init__`: stores the dimensions and the supplied weight
tensors; performs no validation of any kind. -/
def mkGraphAttention (nodeDim edgeDim numHeads : ℕ)
    (Wnode Wedge a : List (List ℚ)) : GATWeights :=
  { nodeDim := nodeDim, edgeDim := edgeDim, numHeads := numHeads,
    Wnode := Wnode, Wedge := Wedge, a := a }

/-- Edge indices whose destination entry literally equals `d` (the boolean
mask `dst_indices == node` of `_softmax_per_node`). -/
def groupIdx (dst : List ℤ) (d : ℤ) : List ℕ :=
  (List.range dst.length).filter (fun j => dst.getD j 0 = d)

/-- `GraphAttention._softmax_per_node`: weights start at zero; for each node
`0 ≤ d < n` the logits of the edges pointing at `d` are softmax-normalised
(per head, with the per-group maximum subtracted).  Edges whose destination
matches no node in `[0, n)` keep weight zero. -/
def softmaxPerNode (E : ℚ → ℚ) (logits : List (List ℚ)) (dst : List ℤ)
    (n : ℕ) : List (List ℚ) :=
  logits.mapIdx (fun i row =>
    let d := dst.getD i 0
    if 0 ≤ d ∧ d < (n : ℤ) then
      row.mapIdx (fun hd x =>
        let grp := groupIdx dst d
        let vals := grp.map (fun j => (logits.getD j []).getD hd 0)
        let m := maxList vals
        E (x - m) / (vals.map (fun v => E (v - m))).sum)
    else row.map (fun _ => 0))

/-- The neighbour-aggregation loop of `GraphAttention.forward`: starting from
`np.zeros_like(h)`, for each edge `i` with (already resolved) source `s` and
destination `d`, and for each head, add `weights[i, head] * h[s]` into row
`d`. -/
def aggregate (numHeads : ℕ) (weights hproj : List (List ℚ))
    (radj : List (ℕ × ℕ)) : List (List ℚ) :=
  (List.range radj.length).foldl (fun acc i =>
    let sd := radj.getD i (0, 0)
    (List.range numHeads).foldl (fun acc2 hd =>
      acc2.set sd.2
        (vadd (acc2.getD sd.2 [])
          (scale ((weights.getD i []).getD hd 0) (hproj.getD sd.1 []))))
      acc)
    (hproj.map (fun r => r.map (fun _ => 0)))

/-- `GraphAttention.forward`: project nodes and edges, compute one leaky-ReLU
attention logit per edge and head from `[h[src], h[dst], e[i]]`, normalise
per destination node, aggregate neighbours, and average over heads.
Adjacency indexing follows numpy semantics (`resolveIdx`); a row that fails
to resolve raises, aborting the call. -/
def getAdjRow (adjacency : List (ℤ × ℤ)) (i : ℕ) : Except String (ℤ × ℤ) :=
  match adjacency[i]? with
  | some p => .ok p
  | none => .error "adjacency row missing for edge"

/-- Unpacking `src_idx, dst_idx = adjacency[i]` with numpy index semantics
on an axis of `numNodes` entries. -/
def resolveAdjRow (numNodes : ℕ) (adjacency : List (ℤ × ℤ)) (i : ℕ) :
    Except String (ℕ × ℕ) :=
  exBind (getAdjRow adjacency i) (fun p =>
    exBind (resolveIdx numNodes p.1) (fun s =>
      exBind (resolveIdx numNodes p.2) (fun d => .ok (s, d))))

def gatForward (E : ℚ → ℚ) (W : GATWeights) (nodeFeatures edgeFeatures : List (List ℚ))
    (adjacency : List (ℤ × ℤ)) : Except String (List (List ℚ)) :=
  let numNodes := nodeFeatures.length
  let h := nodeFeatures.map (matVec W.Wnode)
  let e := edgeFeatures.map (matVec W.Wedge)
  exBind (exMap (resolveAdjRow numNodes adjacency)
      (List.range edgeFeatures.length)) (fun radj =>
    let logits := (List.range edgeFeatures.length).map (fun i =>
      let sd := radj.getD i (0, 0)
      let concatFeatures := h.getD sd.1 [] ++ h.getD sd.2 [] ++ e.getD i []
      W.a.map (fun ah => dot ah concatFeatures))
    let logits := logits.map (fun row => row.map leakyRelu)
    let weights := softmaxPerNode E logits (adjacency.map Prod.snd) numNodes
    let hNew := aggregate W.numHeads weights h radj
    .ok (hNew.map (fun r => r.map (fun x => x / (W.numHeads : ℚ)))))

/-- `PositionalEncoding` state: the configured `max_len` and the sinusoidal
table `pe`. -/
structure PEWeights where
  maxLen : ℕ
  table : List (List ℚ)
deriving DecidableEq, Repr

/-- The geometric frequency term `div_term[m] = exp(2m * -(log 10000 / D))`. -/
def divTerm (env : Numerics) (embedDim m : ℕ) : ℚ :=
  env.expq ((2 * m : ℚ) * (-(env.logC) / (embedDim : ℚ)))

/-- The sinusoidal table of `_create_positional_encoding`: even dimensions
take `sin(pos * div_term)`, odd dimensions `cos(pos * div_term)`. -/
def peTable (env : Numerics) (embedDim maxLen : ℕ) : List (List ℚ) :=
  (List.range maxLen).map (fun (pos : ℕ) =>
    (List.range embedDim).map (fun j =>
      if j % 2 = 0 then env.sinq ((pos : ℚ) * divTerm env embedDim (j / 2))
      else env.cosq ((pos : ℚ) * divTerm env embedDim (j / 2))))

/-- `PositionalEncoding.__init__` / `_create_positional_encoding`.  The
assignment `pe[:, 1::2] = np.cos(position * div_term)` writes a
`ceil(D/2)`-column matrix into a `floor(D/2)`-column slice; numpy broadcasting
accepts that only when the two widths agree (even `D`, or `D = 0`) or the
source width is 1 (`D ≤ 2`), and otherwise — every odd `D ≥ 3` — raises a
`ValueError` at construction time. -/
def mkPositionalEncoding (env : Numerics) (embedDim maxLen : ℕ) :
    Except String PEWeights :=
  let sinCols := (embedDim + 1) / 2
  let cosCols := embedDim / 2
  if sinCols ≠ cosCols ∧ sinCols ≠ 1 then
    .error "could not broadcast input array into positional encoding slice"
  else
    .ok { maxLen := maxLen, table := peTable env embedDim maxLen }

/-- `PositionalEncoding.forward` (batch dimension of 1 stripped): raises when
the sequence is longer than `max_len`, otherwise adds `pe[:seq_len]` row by
row. -/
def posEncForward (pe : PEWeights) (x : List (List ℚ)) :
    Except String (List (List ℚ)) :=
  if x.length > pe.maxLen then .error "Sequence length exceeds max_len"
  else .ok (List.zipWith vadd x (pe.table.take x.length))

/-- Weights of a `MultiHeadAttention` module (projection matrices stored as
lists of columns). -/
structure MHAWeights where
  embedDim : ℕ
  numHeads : ℕ
  Wq : List (List ℚ)
  Wk : List (List ℚ)
  Wv : List (List ℚ)
  Wo : List (List ℚ)
deriving DecidableEq, Repr

/-- Raw (externally supplied) weights for a `MultiHeadAttention`, replacing
`_initialize_weights`'s random draws. -/
structure MHARaw where
  Wq : List (List ℚ)
  Wk : List (List ℚ)
  Wv : List (List ℚ)
  Wo : List (List ℚ)
deriving DecidableEq, Repr

/-- `MultiHeadAttention.__init__`: the divisibility check `embed_dim %
num_heads != 0` raises a `ValueError` before anything else happens. -/
def mkMultiHeadAttention (embedDim numHeads : ℕ) (r : MHARaw) :
    Except String MHAWeights :=
  if embedDim % numHeads ≠ 0 then
    .error "embed_dim must be divisible by num_heads"
  else
    .ok { embedDim := embedDim, numHeads := numHeads,
          Wq := r.Wq, Wk := r.Wk, Wv := r.Wv, Wo := r.Wo }

/-- The slice of a row belonging to head `hd` after the
`(batch, seq, heads, head_dim)` reshape-and-transpose: entries
`[hd * headDim, (hd+1) * headDim)`. -/
def headSlice (headDim hd : ℕ) (row : List ℚ) : List ℚ :=
  (row.drop (hd * headDim)).take headDim

/-- `weights · V` for one attention row: the context row
`Σ_k weights[k] * V[k]`. -/
def weightedSum (w : List ℚ) (rows : List (List ℚ)) : List ℚ :=
  (List.zipWith scale w rows).foldl vadd
    ((rows.headD []).map (fun _ => 0))

/-- `MultiHeadAttention.forward` for a batch of one (the only case the
decoder stack exercises): project to Q/K/V, split heads, scaled dot-product
scores, optional boolean mask replacing masked scores by `-1e9`, stable
softmax over the key axis, context, merge heads, output projection. -/
def mhaForward (env : Numerics) (W : MHAWeights) (query : List (List ℚ))
    (key? value? : Option (List (List ℚ)))
    (mask : Option (List (List Bool))) : List (List ℚ) :=
  let key := key?.getD query
  let value := value?.getD key
  let Q := query.map (matVec W.Wq)
  let K := key.map (matVec W.Wk)
  let V := value.map (matVec W.Wv)
  let headDim := W.embedDim / W.numHeads
  let headOutputs := (List.range W.numHeads).map (fun hd =>
    let Qh := Q.map (headSlice headDim hd)
    let Kh := K.map (headSlice headDim hd)
    let Vh := V.map (headSlice headDim hd)
    let scores := Qh.mapIdx (fun lq qr =>
      Kh.mapIdx (fun lk kr =>
        let raw := dot qr kr / env.sqrtq (headDim : ℚ)
        match mask with
        | none => raw
        | some m => if (m.getD lq []).getD lk true then raw else -1000000000))
    let probs := scores.map (softmaxRow env.expq)
    probs.map (fun wr => weightedSum wr Vh))
  let context := (List.range query.length).map (fun l =>
    (headOutputs.map (fun hm => hm.getD l [])).flatten)
  context.map (matVec W.Wo)

/-! ## Encoder: `models/holographic_encoder.py` -/

/-- `HolographicEncoder` state: node/edge embeddings (column-major matrix +
bias), the graph-attention layer stack, positional encoding, and the output
projection. -/
structure EncoderWeights where
  nodeDim : ℕ
  edgeDim : ℕ
  embedDim : ℕ
  numHeads : ℕ
  nodeW : List (List ℚ)
  nodeB : List ℚ
  edgeW : List (List ℚ)
  edgeB : List ℚ
  layers : List GATWeights
  pe : PEWeights
  outW : List (List ℚ)
deriving DecidableEq, Repr

/-- `HolographicEncoder.__init__`: builds node/edge embeddings, `num_layers`
graph-attention layers, a positional encoding with `max_len=1000`, and the
output projection.  No sub-constructor validates any divisibility between
`embed_dim` and `num_heads` (`GraphAttention.__init__` checks nothing); the
only construction-time failure is the positional-encoding broadcast error,
which `PositionalEncoding.__init__` raises for every odd `embed_dim ≥ 3`. -/
def mkHolographicEncoder (env : Numerics) (nodeDim edgeDim embedDim numLayers numHeads : ℕ)
    (nodeW : List (List ℚ)) (nodeB : List ℚ) (edgeW : List (List ℚ)) (edgeB : List ℚ)
    (layerRaw : ℕ → List (List ℚ) × List (List ℚ) × List (List ℚ))
    (outW : List (List ℚ)) : Except String EncoderWeights :=
  exBind (mkPositionalEncoding env embedDim 1000) (fun pe =>
    .ok
      { nodeDim := nodeDim, edgeDim := edgeDim, embedDim := embedDim,
        numHeads := numHeads,
        nodeW := nodeW, nodeB := nodeB, edgeW := edgeW, edgeB := edgeB,
        layers := (List.range numLayers).map (fun i =>
          mkGraphAttention embedDim (embedDim / 2) numHeads
            (layerRaw i).1 (layerRaw i).2.1 (layerRaw i).2.2)
        pe := pe
        outW := outW })

/-- Shape well-formedness that `HolographicEncoder.__init__` guarantees for
the weight tensors (the parts the shape theorems rely on). -/
def EncoderWF (w : EncoderWeights) : Prop :=
  w.nodeW.length = w.embedDim ∧ w.nodeB.length = w.embedDim ∧
  (∀ l ∈ w.layers, l.Wnode.length = w.embedDim) ∧
  w.pe.maxLen = 1000 ∧ w.pe.table.length = 1000 ∧
  (∀ r ∈ w.pe.table, r.length = w.embedDim) ∧
  w.outW.length = w.embedDim

/-- The layer loop of `HolographicEncoder.encode_graph`: when there are edge
embeddings, apply graph attention, add the residual and layer-normalise;
with zero edges every layer is skipped (`pass`). -/
def encLayersLoop (env : Numerics) (layers : List GATWeights)
    (edgeEmb : List (List ℚ)) (adjacency : List (ℤ × ℤ)) :
    List (List ℚ) → Except String (List (List ℚ))
  | h =>
    match layers with
    | [] => .ok h
    | lw :: rest =>
      if edgeEmb.length > 0 then
        exBind (gatForward env.expq lw h edgeEmb adjacency) (fun hNew =>
          encLayersLoop env rest edgeEmb adjacency
            (layerNormMat env (madd h hNew)))
      else encLayersLoop env rest edgeEmb adjacency h

/-- Metadata returned by `encode_graph` (`attention_weights` is always the
empty list in the source and is omitted). -/
structure EncodeMetadata where
  numNodes : ℕ
  numEdges : ℕ
  inputShapes : (ℕ × ℕ) × (ℕ × ℕ) × (ℕ × ℕ)
deriving DecidableEq, Repr

/-- `HolographicEncoder.encode_graph`: embed nodes and edges, run the
graph-attention stack, add positional encoding (batch of 1), apply the
output projection, and report metadata. -/
def encodeGraph (env : Numerics) (w : EncoderWeights)
    (nodeFeatures edgeFeatures : List (List ℚ)) (adjacency : List (ℤ × ℤ)) :
    Except String (List (List ℚ) × EncodeMetadata) :=
  let nodeEmbeddings := nodeFeatures.map (fun r => relu (linearRow w.nodeW w.nodeB r))
  let edgeEmbeddings :=
    if edgeFeatures.length > 0 then
      edgeFeatures.map (fun r => relu (linearRow w.edgeW w.edgeB r))
    else []
  exBind (encLayersLoop env w.layers edgeEmbeddings adjacency nodeEmbeddings)
    (fun h =>
      exBind (posEncForward w.pe h) (fun h2 =>
        .ok (h2.map (matVec w.outW),
          { numNodes := nodeFeatures.length
            numEdges := edgeFeatures.length
            inputShapes :=
              (listShape nodeFeatures, listShape edgeFeatures,
               (adjacency.length, 2)) })))

/-- `HolographicEncoder.encode_holographic_state`: convert the state to its
graph representation and delegate to `encode_graph`. -/
def encodeHolographicState (env : Numerics) (w : EncoderWeights)
    (s : HolographicState) : Except String (List (List ℚ) × EncodeMetadata) :=
  let graph := toGraphRepresentation s
  encodeGraph env w graph.nodeFeatures graph.edgeFeatures graph.adjacency

/-- The argument of `HolographicEncoder.__call__` / `IRHTransformer.forward`:
a `HolographicState`, a graph dict, or anything else (which the dispatch
rejects with a `TypeError`).  `CouplingState` is listed because
`predict_batch` forwards it unconverted. -/
inductive ForwardInput where
  | state (s : HolographicState)
  | graph (nodeFeatures edgeFeatures : List (List ℚ)) (adjacency : List (ℤ × ℤ))
  | coupling (c : CouplingState)
deriving DecidableEq, Repr

/-- `HolographicEncoder.__call__`: dispatch on the input type —
`HolographicState` goes through `encode_holographic_state`, a graph dict
through `encode_graph`, anything else raises `TypeError`. -/
def encoderCall (env : Numerics) (w : EncoderWeights) (input : ForwardInput) :
    Except String (List (List ℚ) × EncodeMetadata) :=
  match input with
  | .state s => encodeHolographicState env w s
  | .graph nodes edges adj => encodeGraph env w nodes edges adj
  | .coupling _ => .error "Expected HolographicState or dict"

/-! ## Decoder: `models/resonance_decoder.py` -/

/-- `FeedForward` weights: two linear layers (column-major) with biases. -/
structure FFWeights where
  W1 : List (List ℚ)
  b1 : List ℚ
  W2 : List (List ℚ)
  b2 : List ℚ
deriving DecidableEq, Repr

/-- `FeedForward.forward` on one row: linear → ReLU → linear. -/
def ffRow (ff : FFWeights) (x : List ℚ) : List ℚ :=
  linearRow ff.W2 ff.b2 (relu (linearRow ff.W1 ff.b1 x))

/-- `FeedForward.forward` row-wise on a matrix. -/
def ffForward (ff : FFWeights) (x : List (List ℚ)) : List (List ℚ) :=
  x.map (ffRow ff)

/-- `DecoderLayer` weights: self-attention, cross-attention, feed-forward. -/
structure DecLayerWeights where
  selfAtt : MHAWeights
  crossAtt : MHAWeights
  ff : FFWeights
deriving DecidableEq, Repr

/-- Raw weights for one `DecoderLayer`. -/
structure DecLayerRaw where
  selfRaw : MHARaw
  crossRaw : MHARaw
  ffRaw : FFWeights
deriving DecidableEq, Repr

/-- `DecoderLayer.__init__`: constructs the two `MultiHeadAttention`
sublayers (each of which validates divisibility) and the feed-forward. -/
def mkDecoderLayer (embedDim numHeads : ℕ) (r : DecLayerRaw) :
    Except String DecLayerWeights :=
  exBind (mkMultiHeadAttention embedDim numHeads r.selfRaw) (fun sa =>
    exBind (mkMultiHeadAttention embedDim numHeads r.crossRaw) (fun ca =>
      .ok { selfAtt := sa, crossAtt := ca, ff := r.ffRaw }))

/-- `DecoderLayer.forward` (batch of 1): self-attention, cross-attention
against the encoder memory, feed-forward — each with residual and layer
norm; no masks are passed anywhere in the decoder stack. -/
def decoderLayerForward (env : Numerics) (lw : DecLayerWeights)
    (query memory : List (List ℚ)) : List (List ℚ) :=
  let q1 := layerNormMat env
    (madd query (mhaForward env lw.selfAtt query none none none))
  let q2 := layerNormMat env
    (madd q1 (mhaForward env lw.crossAtt q1 (some memory) (some memory) none))
  layerNormMat env (madd q2 (ffForward lw.ff q2))

/-- `ResonanceDecoder` weights: the layer stack and the three prediction
heads. -/
structure DecoderWeights where
  embedDim : ℕ
  numHeads : ℕ
  layers : List DecLayerWeights
  couplingW : List (List ℚ)
  couplingB : List ℚ
  fixedPointW : List (List ℚ)
  fixedPointB : List ℚ
  actionW : List (List ℚ)
  actionB : List ℚ
deriving DecidableEq, Repr

/-- Raw weights for the three heads of `_initialize_heads`. -/
structure HeadsRaw where
  couplingW : List (List ℚ)
  couplingB : List ℚ
  fixedPointW : List (List ℚ)
  fixedPointB : List ℚ
  actionW : List (List ℚ)
  actionB : List ℚ
deriving DecidableEq, Repr

/-- `ResonanceDecoder.__init__`: builds `num_layers` decoder layers (each
constructing two `MultiHeadAttention`s, whose divisibility check can raise)
and then the prediction heads. -/
def mkResonanceDecoder (embedDim numLayers numHeads : ℕ)
    (rs : ℕ → DecLayerRaw) (heads : HeadsRaw) : Except String DecoderWeights :=
  exBind (exMap (fun i => mkDecoderLayer embedDim numHeads (rs i))
      (List.range numLayers)) (fun layers =>
    .ok { embedDim := embedDim, numHeads := numHeads, layers := layers,
          couplingW := heads.couplingW, couplingB := heads.couplingB,
          fixedPointW := heads.fixedPointW, fixedPointB := heads.fixedPointB,
          actionW := heads.actionW, actionB := heads.actionB })

/-- `ResonanceDecoder._predict_fixed_point` on the final hidden vector:
linear head then element-wise sigmoid `1 / (1 + exp(-logit))`. -/
def predictFixedPointHead (env : Numerics) (W : List (List ℚ)) (b : List ℚ)
    (hidden : List ℚ) : List ℚ :=
  (linearRow W b hidden).map (fun z => 1 / (1 + env.expq (-z)))

/-- The prediction dict of `ResonanceDecoder.forward` for a single sample
(batch dimension of 1 already squeezed, as the source does). -/
structure DecoderPredictions where
  couplings : List ℚ
  isFixedPoint : List ℚ
  action : List ℚ
deriving DecidableEq, Repr

/-- `ResonanceDecoder.forward` for one 2-D encoded state: the sole query is
the last encoded node, the layers run in sequence, the final hidden vector
feeds the coupling, fixed-point, and action heads. -/
def decoderForward (env : Numerics) (dw : DecoderWeights)
    (encodedState : List (List ℚ)) : DecoderPredictions :=
  let targetQueries := [encodedState.getD (encodedState.length - 1) []]
  let hidden := dw.layers.foldl
    (fun h lw => decoderLayerForward env lw h encodedState) targetQueries
  let finalHidden := hidden.getD (hidden.length - 1) []
  { couplings := linearRow dw.couplingW dw.couplingB finalHidden
    isFixedPoint := predictFixedPointHead env dw.fixedPointW dw.fixedPointB finalHidden
    action := linearRow dw.actionW dw.actionB finalHidden }

/-! ## Surrogate model: `models/irh_transformer.py` -/

/-- The full prediction mapping returned by `IRHTransformer.forward`
(predictions plus the encoder metadata the source attaches). -/
structure Predictions where
  couplings : List ℚ
  isFixedPoint : List ℚ
  action : List ℚ
  encoderMetadata : EncodeMetadata
deriving DecidableEq, Repr

/-- `IRHTransformer` weights: the composed encoder and decoder. -/
structure ModelWeights where
  enc : EncoderWeights
  dec : DecoderWeights
deriving DecidableEq, Repr

/-- `IRHTransformer.forward`: encode (the encoder call can raise), decode,
attach the encoder metadata. -/
def forwardModel (env : Numerics) (m : ModelWeights) (input : ForwardInput) :
    Except String Predictions :=
  exBind (encoderCall env m.enc input) (fun em =>
    let p := decoderForward env m.dec em.1
    .ok { couplings := p.couplings, isFixedPoint := p.isFixedPoint,
          action := p.action, encoderMetadata := em.2 })

/-- The `Union[HolographicState, CouplingState]` argument accepted by the
task-level prediction methods. -/
inductive StateInput where
  | coupling (c : CouplingState)
  | holo (s : HolographicState)
deriving DecidableEq, Repr

/-- The conversion prologue shared by the task-level methods: wrap a bare
`CouplingState` in a fresh `HolographicState`. -/
def toHolo : StateInput → HolographicState
  | .coupling c => mkHolographicState (some c) 1
  | .holo s => s

/-- `IRHTransformer.predict_fixed_point`: run forward; if the fixed-point
probability exceeds 0.5, return the coupling prediction as a fixed-point
state (at `k = 0`, `level = -1`) with the probability, else `None` with the
probability. -/
def predictFixedPoint (env : Numerics) (m : ModelWeights)
    (initialState : StateInput) :
    Except String (Option CouplingState × ℚ) :=
  exBind (forwardModel env m (.state (toHolo initialState))) (fun p =>
    let fpProb := p.isFixedPoint.getD 0 0
    if fpProb > 1 / 2 then
      .ok (some
        { lambdaTilde := p.couplings.getD 0 0
          gammaTilde := p.couplings.getD 1 0
          muTilde := p.couplings.getD 2 0
          k := 0
          level := -1 }, fpProb)
    else .ok (none, fpProb))

/-- `IRHTransformer.predict_batch`: the Python loop `predictions = [];
for state in states: predictions.append(self.forward(state))`, with the
first raised exception aborting the whole batch. -/
def predictBatch (env : Numerics) (m : ModelWeights)
    (states : List ForwardInput) : Except String (List Predictions) :=
  states.foldl
    (fun acc input =>
      match acc with
      | .error msg => .error msg
      | .ok preds =>
        match forwardModel env m input with
        | .error msg => .error msg
        | .ok p => .ok (preds ++ [p]))
    (.ok [])

/-! ## Concrete instances used to evaluate the development on closed inputs -/

/-- A concrete executable `Numerics` instance (constant primitives; `expq` is
the constant 1, which is positive, as the real exponential is). -/
def env0 : Numerics :=
  { expq := fun _ => 1, sqrtq := fun _ => 0, sinq := fun _ => 0,
    cosq := fun _ => 0, logC := 0 }

/-- A concrete encoder weight set with `embed_dim = 1` and no graph layers. -/
def encW : EncoderWeights :=
  { nodeDim := 4, edgeDim := 3, embedDim := 1, numHeads := 4,
    nodeW := [[0, 0, 0, 0]], nodeB := [0], edgeW := [], edgeB := [],
    layers := [], pe := { maxLen := 1000, table := peTable env0 1 1000 },
    outW := [[0]] }

/-- A concrete decoder weight set with `embed_dim = 1` and no layers. -/
def decW : DecoderWeights :=
  { embedDim := 1, numHeads := 1, layers := [],
    couplingW := [[0], [0], [0]], couplingB := [0, 0, 0],
    fixedPointW := [[0]], fixedPointB := [0],
    actionW := [[0]], actionB := [0] }

/-- The concrete surrogate model combining `encW` and `decW`. -/
def modelW : ModelWeights := { enc := encW, dec := decW }

/-- A single-step holographic state at the origin of coupling space. -/
def state0 : HolographicState :=
  mkHolographicState (some { lambdaTilde := 0, gammaTilde := 0, muTilde := 0, k := 0, level := 0 }) 1

/-- The prediction `forwardModel env0 modelW` produces on `state0`. -/
def pred0 : Predictions :=
  { couplings := [0, 0, 0], isFixedPoint := [1 / 2], action := [0],
    encoderMetadata :=
      { numNodes := 1, numEdges := 0,
        inputShapes := ((1, 4), (0, 0), (0, 2)) } }

/-- A two-step state with equal scales (so `dk = 0`) and no recorded betas. -/
def stateDkZero : HolographicState :=
  { trajectory :=
      [{ lambdaTilde := 1, gammaTilde := 2, muTilde := 3, k := 5, level := 0 },
       { lambdaTilde := 4, gammaTilde := 6, muTilde := 8, k := 5, level := 1 }]
    fixedPoint := none, action := none, betas := [] }

/-- A two-step state with scale difference `dk = 1` and no recorded betas. -/
def stateDkOne : HolographicState :=
  { trajectory :=
      [{ lambdaTilde := 1, gammaTilde := 2, muTilde := 3, k := 1, level := 0 },
       { lambdaTilde := 4, gammaTilde := 6, muTilde := 8, k := 2, level := 1 }]
    fixedPoint := none, action := none, betas := [] }

/-- A trajectory of 1001 states: longer than the positional-encoding table. -/
def state1001 : HolographicState :=
  { trajectory := List.replicate 1001 default
    fixedPoint := none, action := none, betas := [] }

instance : Inhabited EncodeMetadata := ⟨⟨0, 0, ((0, 0), (0, 0), (0, 0))⟩⟩

instance : Inhabited Predictions := ⟨⟨[], [], [], default⟩⟩

instance : Inhabited ForwardInput := ⟨.coupling default⟩

/-- Concrete raw multi-head-attention weights (contents irrelevant to the
construction-time validation). -/
def mhaRaw0 : MHARaw := { Wq := [], Wk := [], Wv := [], Wo := [] }

/-- Concrete raw decoder-layer weights. -/
def decLayerRaw0 : DecLayerRaw :=
  { selfRaw := mhaRaw0, crossRaw := mhaRaw0,
    ffRaw := { W1 := [], b1 := [], W2 := [], b2 := [] } }

/-- Concrete raw prediction-head weights. -/
def headsRaw0 : HeadsRaw :=
  { couplingW := [], couplingB := [], fixedPointW := [], fixedPointB := [],
    actionW := [], actionB := [] }

/-- Concrete graph-attention weights on 1-dimensional features. -/
def gatW0 : GATWeights :=
  { nodeDim := 1, edgeDim := 1, numHeads := 1,
    Wnode := [[1]], Wedge := [[1]], a := [[1, 1, 1]] }

/-! ## Generic helper lemmas -/

@[simp] theorem exBind_ok (a : α) (f : α → Except String β) :
    exBind (.ok a) f = f a := rfl

@[simp] theorem exBind_error (e : String) (f : α → Except String β) :
    exBind (.error e) f = .error e := rfl

theorem exBind_isOk {x : Except String α} {f : α → Except String β}
    (h : (exBind x f).isOk = true) : ∃ a, x = .ok a := by
  cases x with
  | error e => simp [exBind, Except.isOk, Except.toBool] at h
  | ok a => exact ⟨a, rfl⟩

theorem exMap_ok_of_forall {f : α → Except String β} {l : List α}
    (h : ∀ a ∈ l, ∃ b, f a = .ok b) : ∃ out, exMap f l = .ok out := by
  induction l with
  | nil => exact ⟨[], rfl⟩
  | cons a as ih =>
    obtain ⟨b, hb⟩ := h a (List.mem_cons_self a as)
    obtain ⟨out, hout⟩ := ih (fun x hx => h x (List.mem_cons_of_mem a hx))
    exact ⟨b :: out, by simp [exMap, hb, hout]⟩

theorem exMap_ok_forall {f : α → Except String β} {l : List α} {out : List β}
    (h : exMap f l = .ok out) : ∀ a ∈ l, ∃ b, f a = .ok b := by
  induction l generalizing out with
  | nil => intro a ha; cases ha
  | cons a as ih =>
    intro x hx
    simp only [exMap] at h
    cases hfa : f a with
    | error e => rw [hfa] at h; cases h
    | ok b =>
      rw [hfa] at h
      cases hrest : exMap f as with
      | error e => rw [hrest] at h; cases h
      | ok bs =>
        rcases List.mem_cons.mp hx with h1 | h2
        · exact ⟨b, h1 ▸ hfa⟩
        · exact ih hrest x h2

theorem exMap_length {f : α → Except String β} {l : List α} {out : List β}
    (h : exMap f l = .ok out) : out.length = l.length := by
  induction l generalizing out with
  | nil => simp only [exMap] at h; cases h; rfl
  | cons a as ih =>
    simp only [exMap] at h
    cases hfa : f a with
    | error e => rw [hfa] at h; cases h
    | ok b =>
      rw [hfa] at h
      cases hrest : exMap f as with
      | error e => rw [hrest] at h; cases h
      | ok bs =>
        rw [hrest] at h
        cases h
        simp [ih hrest]

theorem exMap_mem {f : α → Except String β} {l : List α} {out : List β}
    (h : exMap f l = .ok out) : ∀ b ∈ out, ∃ a ∈ l, f a = .ok b := by
  induction l generalizing out with
  | nil => simp only [exMap] at h; cases h; intro b hb; cases hb
  | cons a as ih =>
    simp only [exMap] at h
    cases hfa : f a with
    | error e => rw [hfa] at h; cases h
    | ok b =>
      rw [hfa] at h
      cases hrest : exMap f as with
      | error e => rw [hrest] at h; cases h
      | ok bs =>
        rw [hrest] at h
        cases h
        intro x hx
        rcases List.mem_cons.mp hx with h1 | h2
        · exact ⟨a, List.mem_cons_self a as, h1 ▸ hfa⟩
        · obtain ⟨a2, ha2, hfa2⟩ := ih hrest x h2
          exact ⟨a2, List.mem_cons_of_mem a ha2, hfa2⟩

theorem foldl_invariant (P : β → Prop) {f : β → α → β} {l : List α} {init : β}
    (hstep : ∀ acc a, a ∈ l → P acc → P (f acc a)) (hinit : P init) :
    P (l.foldl f init) := by
  induction l generalizing init with
  | nil => exact hinit
  | cons a as ih =>
    exact ih (fun acc x hx => hstep acc x (List.mem_cons_of_mem a hx))
      (hstep init a (List.mem_cons_self a as) hinit)


/-! ## Claim theorems -/

/-- C1: encoding a high-level trajectory state and encoding the raw graph
tensors obtained from its `to_graph_representation` produce identical
results — the same encoding tensor and the same metadata — because
`encode_holographic_state` delegates to `encode_graph` on exactly those
tensors, and `__call__` dispatches both input forms to those two methods. -/
theorem C1_roundtrip_equivalence (env : Numerics) (w : EncoderWeights)
    (s : HolographicState) :
    encoderCall env w (.state s) =
      encoderCall env w (.graph (toGraphRepresentation s).nodeFeatures
        (toGraphRepresentation s).edgeFeatures
        (toGraphRepresentation s).adjacency) := rfl

/-- C2: for every finite hidden input, the `is_fixed_point` entry computed by
`ResonanceDecoder.forward` — a sigmoid `1 / (1 + exp(-logit))` of a linear
head — lies in the closed interval `[0, 1]`, provided the exponential is
positive (as the real `np.exp` is). -/
theorem C2_fixed_point_head_bounded (env : Numerics) (dw : DecoderWeights)
    (encodedState : List (List ℚ)) (hE : ∀ x, 0 < env.expq x) :
    ∀ p ∈ (decoderForward env dw encodedState).isFixedPoint, 0 ≤ p ∧ p ≤ 1 := by
  intro p hp
  simp only [decoderForward, predictFixedPointHead, List.mem_map] at hp
  obtain ⟨z, _, rfl⟩ := hp
  have hpos : 0 < 1 + env.expq (-z) := by have := hE (-z); linarith
  refine ⟨le_of_lt (div_pos one_pos hpos), ?_⟩
  rw [div_le_one hpos]
  have := hE (-z)
  linarith

/-- Witness for C2 at a concrete model and input: the fixed-point entry the
concrete decoder produces is `1/2`, and the theorem brackets it in `[0, 1]`. -/
theorem C2_witness : (0 : ℚ) ≤ 1 / 2 ∧ (1 : ℚ) / 2 ≤ 1 :=
  C2_fixed_point_head_bounded env0 decW [[0]] (fun _ => one_pos) (1 / 2)
    (by
      have h : (decoderForward env0 decW [[0]]).isFixedPoint = [1 / 2] := by
        simp [decoderForward, decW, predictFixedPointHead, linearRow, dot, env0]
        norm_num
      rw [h]
      exact List.mem_singleton.mpr rfl)

/-- C6: when no beta triple is recorded for a transition, the graph
conversion derives the edge feature as the coordinate differences divided by
`dk` when `|dk|` exceeds `SCALE_DIFF_TOLERANCE = 1e-12`, and as exactly
`(0, 0, 0)` when `|dk|` is at or below the tolerance, so the division is
guarded. -/
theorem C6_guarded_finite_difference (s : HolographicState) (i : ℕ)
    (hi : i + 1 < s.trajectory.length)
    (hb : s.betas.lookup (i + 1) = none) :
    (scaleDiffTolerance < |(s.trajectory.getD (i + 1) default).k -
        (s.trajectory.getD i default).k| →
      (toGraphRepresentation s).edgeFeatures.getD i [] =
        (let curr := s.trajectory.getD (i + 1) default
         let prev := s.trajectory.getD i default
         let dk := curr.k - prev.k
         [(curr.lambdaTilde - prev.lambdaTilde) / dk,
          (curr.gammaTilde - prev.gammaTilde) / dk,
          (curr.muTilde - prev.muTilde) / dk])) ∧
    (|(s.trajectory.getD (i + 1) default).k -
        (s.trajectory.getD i default).k| ≤ scaleDiffTolerance →
      (toGraphRepresentation s).edgeFeatures.getD i [] = [0, 0, 0]) := by
  have hlen : i < s.trajectory.length - 1 := by omega
  have hval : (toGraphRepresentation s).edgeFeatures.getD i [] =
      (match s.betas.lookup (i + 1) with
       | some b => [b.1, b.2.1, b.2.2]
       | none =>
         let curr := s.trajectory.getD (i + 1) default
         let prev := s.trajectory.getD i default
         let dk := curr.k - prev.k
         if |dk| > scaleDiffTolerance then
           [(curr.lambdaTilde - prev.lambdaTilde) / dk,
            (curr.gammaTilde - prev.gammaTilde) / dk,
            (curr.muTilde - prev.muTilde) / dk]
         else [0, 0, 0]) := by
    simp only [toGraphRepresentation, List.getD_eq_getElem?_getD,
      List.getElem?_map, List.getElem?_range hlen, Option.map_some',
      Option.getD_some]
  rw [hb] at hval
  constructor
  · intro hgt
    rw [hval]
    simp only [gt_iff_lt, if_pos hgt]
  · intro hle
    rw [hval]
    simp only [gt_iff_lt, if_neg (not_lt.mpr hle)]

/-- Witness for C6: on a concrete two-step trajectory with `dk = 1` the
derived edge is the finite difference `[3, 4, 5]`; with `dk = 0` it is
exactly `[0, 0, 0]`. -/
theorem C6_witness :
    (toGraphRepresentation stateDkOne).edgeFeatures.getD 0 [] = [3, 4, 5] ∧
    (toGraphRepresentation stateDkZero).edgeFeatures.getD 0 [] = [0, 0, 0] := by
  constructor
  · have h := (C6_guarded_finite_difference stateDkOne 0
      (by norm_num [stateDkOne]) (by simp [stateDkOne])).1
      (by norm_num [stateDkOne, scaleDiffTolerance])
    rw [h]
    norm_num [stateDkOne]
  · exact (C6_guarded_finite_difference stateDkZero 0
      (by norm_num [stateDkZero]) (by simp [stateDkZero])).2
      (by norm_num [stateDkZero, scaleDiffTolerance])

/-- Auxiliary step for C10: `add_rg_step` preserves the invariant that entry
`i` of the trajectory carries level `i`, because it overwrites the appended
state's level with the trajectory length. -/
theorem addRgStep_level_inv (s : HolographicState)
    (h : ∀ (i : ℕ) (c : CouplingState),
      s.trajectory[i]? = some c → c.level = (i : ℤ))
    (nc : CouplingState) (bf : Option (ℚ × ℚ × ℚ)) :
    ∀ (i : ℕ) (c : CouplingState),
      (addRgStep s nc bf).trajectory[i]? = some c → c.level = (i : ℤ) := by
  intro i c hc
  simp only [addRgStep] at hc
  by_cases hi : i < s.trajectory.length
  · rw [List.getElem?_append_left hi] at hc
    exact h i c hc
  · rw [List.getElem?_append_right (le_of_not_lt hi)] at hc
    rcases hm : i - s.trajectory.length with _ | m
    · rw [hm] at hc
      simp only [List.getElem?_cons_zero, Option.some.injEq] at hc
      have : i = s.trajectory.length := by omega
      rw [← hc, this]
    · rw [hm] at hc
      simp at hc

/-- C10: starting from an initial coupling state of level 0, after any
sequence of `add_rg_step` calls every trajectory entry `i` has `level = i`;
moreover `add_rg_step` always appends the passed state with its `level`
field overwritten by the trajectory length at call time, whatever level the
caller had set. -/
theorem C10_level_invariant (c0 : CouplingState) (kInitial : ℚ)
    (h0 : c0.level = 0)
    (steps : List (CouplingState × Option (ℚ × ℚ × ℚ))) :
    (∀ (i : ℕ) (c : CouplingState),
      ((steps.foldl (fun s p => addRgStep s p.1 p.2)
          (mkHolographicState (some c0) kInitial)).trajectory)[i]? = some c →
        c.level = (i : ℤ)) ∧
    (∀ (s : HolographicState) (nc : CouplingState) (bf : Option (ℚ × ℚ × ℚ)),
      (addRgStep s nc bf).trajectory.getLast? =
        some { nc with level := (s.trajectory.length : ℤ) }) := by
  constructor
  · apply foldl_invariant
      (fun (s : HolographicState) => ∀ (i : ℕ) (c : CouplingState),
        s.trajectory[i]? = some c → c.level = (i : ℤ))
    · exact fun acc p _ hacc => addRgStep_level_inv acc hacc p.1 p.2
    · intro i c hc
      rcases i with _ | j
      · have hc0 : c0 = c := by
          simpa [mkHolographicState] using hc
        rw [← hc0]
        exact h0
      · exfalso
        simp [mkHolographicState] at hc
  · intro s nc bf
    simp [addRgStep, List.getLast?_concat]

/-- Witness for C10 on a concrete run: appending a state whose caller-set
level is 99 produces trajectory entry 1 with level 1, and the appended
record is the passed state with level overwritten to the call-time length. -/
theorem C10_witness :
    ({ lambdaTilde := 9, gammaTilde := 9, muTilde := 9, k := 9,
       level := 1 } : CouplingState).level = (1 : ℤ) ∧
    (addRgStep state0
        { lambdaTilde := 9, gammaTilde := 9, muTilde := 9, k := 9, level := 99 }
        none).trajectory.getLast? =
      some { lambdaTilde := 9, gammaTilde := 9, muTilde := 9, k := 9,
             level := 1 } := by
  have h := C10_level_invariant
    { lambdaTilde := 0, gammaTilde := 0, muTilde := 0, k := 0, level := 0 } 1
    rfl [({ lambdaTilde := 9, gammaTilde := 9, muTilde := 9, k := 9,
            level := 99 }, none)]
  refine ⟨?_, ?_⟩
  · exact h.1 1 _ (by simp [addRgStep, mkHolographicState])
  · have h2 := h.2 state0
      { lambdaTilde := 9, gammaTilde := 9, muTilde := 9, k := 9, level := 99 }
      none
    simpa [state0, mkHolographicState] using h2

/-- Counterexample for C4 as stated: constructing a `HolographicEncoder`
with `embed_dim = 10` and `num_heads = 4` (10 is not divisible by 4)
succeeds — the encoder performs no divisibility validation, because
`GraphAttention.__init__` checks nothing. -/
theorem C4_counterexample :
    (mkHolographicEncoder env0 4 3 10 3 4 [] [] [] []
      (fun _ => ([], [], [])) []).isOk = true ∧ 10 % 4 ≠ 0 :=
  ⟨rfl, by decide⟩

/-- C4 (amended): `MultiHeadAttention` construction — and therefore decoder
construction, whenever it builds at least one layer — fails exactly when the
embedding width is not divisible by the head count; `HolographicEncoder`
construction never validates divisibility (head count plays no role in its
success), its only construction-time failure being the positional-encoding
broadcast error, raised exactly for odd `embed_dim ≥ 3`. -/
theorem C4_construction_validation (embedDim numHeads : ℕ) (r : MHARaw)
    (numLayers : ℕ) (rs : ℕ → DecLayerRaw) (heads : HeadsRaw) :
    ((mkMultiHeadAttention embedDim numHeads r).isOk = true ↔
      embedDim % numHeads = 0) ∧
    (0 < numLayers →
      ((mkResonanceDecoder embedDim numLayers numHeads rs heads).isOk = true ↔
        embedDim % numHeads = 0)) ∧
    (∀ (env : Numerics) (nd ed eD nL nH : ℕ) (nw : List (List ℚ))
        (nb : List ℚ) (ew : List (List ℚ)) (eb : List ℚ)
        (lr : ℕ → List (List ℚ) × List (List ℚ) × List (List ℚ))
        (ow : List (List ℚ)),
      (mkHolographicEncoder env nd ed eD nL nH nw nb ew eb lr ow).isOk = true ↔
        (eD % 2 = 0 ∨ eD < 3)) := by
  refine ⟨?_, ?_, ?_⟩
  · by_cases h : embedDim % numHeads = 0 <;>
      simp [mkMultiHeadAttention, h, Except.isOk, Except.toBool]
  · intro hL
    by_cases h : embedDim % numHeads = 0
    · have hlayer : ∀ i ∈ List.range numLayers, ∃ b,
          mkDecoderLayer embedDim numHeads (rs i) = .ok b := by
        intro i _
        cases hd : mkDecoderLayer embedDim numHeads (rs i) with
        | error msg =>
          exfalso
          simp [mkDecoderLayer, mkMultiHeadAttention, h] at hd
        | ok b => exact ⟨b, rfl⟩
      obtain ⟨layers, hlayers⟩ := exMap_ok_of_forall hlayer
      simp [mkResonanceDecoder, hlayers, Except.isOk, Except.toBool, h]
    · constructor
      · intro hok
        exfalso
        simp only [mkResonanceDecoder] at hok
        cases hex : exMap (fun i => mkDecoderLayer embedDim numHeads (rs i))
            (List.range numLayers) with
        | error msg => rw [hex] at hok; simp [Except.isOk, Except.toBool] at hok
        | ok layers =>
          obtain ⟨b, hb⟩ := exMap_ok_forall hex 0 (List.mem_range.mpr hL)
          simp [mkDecoderLayer, mkMultiHeadAttention, h] at hb
      · intro hmod
        exact absurd hmod h
  · intro env nd ed eD nL nH nw nb ew eb lr ow
    by_cases hb : (eD + 1) / 2 ≠ eD / 2 ∧ (eD + 1) / 2 ≠ 1
    · rw [mkHolographicEncoder, mkPositionalEncoding]
      rw [if_pos hb]
      simp only [exBind_error]
      constructor
      · intro hok
        simp [Except.isOk, Except.toBool] at hok
      · intro hok
        exfalso
        omega
    · rw [mkHolographicEncoder, mkPositionalEncoding]
      rw [if_neg hb]
      simp only [exBind_ok]
      constructor
      · intro _
        omega
      · intro _
        rfl

/-- Witness for C4 at concrete configurations: a one-layer decoder with
`embed_dim = 8`, `num_heads = 2` constructs successfully (8 divides evenly
by 2). -/
theorem C4_witness :
    (mkResonanceDecoder 8 1 2 (fun _ => decLayerRaw0) headsRaw0).isOk = true ↔
      8 % 2 = 0 :=
  (C4_construction_validation 8 2 mhaRaw0 1 (fun _ => decLayerRaw0)
    headsRaw0).2.1 (by norm_num)

/-- Concrete evaluation: the first positional-encoding row of the concrete
table is the zero row. -/
theorem encW_pe_take_one : (peTable env0 1 1000).take 1 = [[0]] := by
  simp only [peTable]
  rw [← List.map_take, List.take_range]
  norm_num [List.range_succ, env0]

/-- Concrete evaluation of the encoder on the one-node zero graph. -/
theorem encodeGraph_zero :
    encodeGraph env0 encW [[0, 0, 0, 0]] [] [] =
      .ok ([[0]],
           { numNodes := 1, numEdges := 0,
             inputShapes := ((1, 4), (0, 0), (0, 2)) }) := by
  norm_num [encodeGraph, encW, encLayersLoop, relu, linearRow, dot,
    posEncForward, encW_pe_take_one, vadd,
    matVec, listShape]

/-- Concrete evaluation of the graph conversion of `state0`. -/
theorem toGraph_state0 :
    toGraphRepresentation state0 =
      { nodeFeatures := [[0, 0, 0, 0]], edgeFeatures := [], adjacency := [],
        numNodes := 1 : GraphRep } := by
  simp [toGraphRepresentation, state0, mkHolographicState,
    CouplingState.toArray]

/-- Concrete evaluation of the full surrogate forward pass on `state0`. -/
theorem forwardModel_env0_state0 :
    forwardModel env0 modelW (.state state0) = .ok pred0 := by
  simp only [forwardModel, encoderCall, encodeHolographicState, toGraph_state0,
    modelW]
  rw [encodeGraph_zero]
  norm_num [decoderForward, decW, predictFixedPointHead, linearRow, dot,
    env0, pred0, matVec]

/-- C3: `predict_fixed_point` returns a candidate coupling state (at `k = 0`
with level marker `-1`) together with the fixed-point probability exactly
when the forward pass's probability exceeds 0.5; otherwise it returns none
together with that same probability. -/
theorem C3_fixed_point_threshold (env : Numerics) (m : ModelWeights)
    (inp : StateInput) (p : Predictions)
    (h : forwardModel env m (.state (toHolo inp)) = .ok p) :
    (1 / 2 < p.isFixedPoint.getD 0 0 →
      predictFixedPoint env m inp =
        .ok (some
          { lambdaTilde := p.couplings.getD 0 0
            gammaTilde := p.couplings.getD 1 0
            muTilde := p.couplings.getD 2 0
            k := 0
            level := -1 }, p.isFixedPoint.getD 0 0)) ∧
    (p.isFixedPoint.getD 0 0 ≤ 1 / 2 →
      predictFixedPoint env m inp = .ok (none, p.isFixedPoint.getD 0 0)) := by
  constructor
  · intro hgt
    simp only [predictFixedPoint, h, exBind_ok, gt_iff_lt]
    rw [if_pos hgt]
  · intro hle
    simp only [predictFixedPoint, h, exBind_ok, gt_iff_lt]
    rw [if_neg (not_lt.mpr hle)]

/-- Witness for C3 on the concrete model: the forward pass yields
probability exactly `1/2`, which does not exceed the threshold, so the call
returns none with confidence `1/2`. -/
theorem C3_witness :
    predictFixedPoint env0 modelW (.holo state0) = .ok (none, 1 / 2) := by
  have h := (C3_fixed_point_threshold env0 modelW (.holo state0) pred0
    forwardModel_env0_state0).2 (by norm_num [pred0])
  simpa [pred0] using h

/-- Helper for C9: the append-loop of `predict_batch` computes `exMap` of the
forward pass. -/
theorem predictBatch_eq_exMap (env : Numerics) (m : ModelWeights)
    (states : List ForwardInput) :
    predictBatch env m states = exMap (forwardModel env m) states := by
  have herr : ∀ (l : List ForwardInput) (msg : String),
      l.foldl
        (fun acc input =>
          match acc with
          | .error msg => .error msg
          | .ok preds =>
            match forwardModel env m input with
            | .error msg => .error msg
            | .ok p => .ok (preds ++ [p]))
        (Except.error msg : Except String (List Predictions)) =
          .error msg := by
    intro l
    induction l with
    | nil => intro msg; rfl
    | cons a as ih => intro msg; exact ih msg
  suffices hgen : ∀ (l : List ForwardInput) (acc : List Predictions),
      l.foldl
        (fun acc input =>
          match acc with
          | .error msg => .error msg
          | .ok preds =>
            match forwardModel env m input with
            | .error msg => .error msg
            | .ok p => .ok (preds ++ [p]))
        (Except.ok acc : Except String (List Predictions)) =
        (match exMap (forwardModel env m) l with
         | .error msg => .error msg
         | .ok out => .ok (acc ++ out)) by
    have h := hgen states []
    simp only [predictBatch, h]
    cases exMap (forwardModel env m) states <;> simp
  intro l
  induction l with
  | nil => intro acc; simp [exMap]
  | cons a as ih =>
    intro acc
    simp only [List.foldl_cons, exMap]
    cases hfa : forwardModel env m a with
    | error msg => simp [herr]
    | ok p =>
      rw [ih (acc ++ [p])]
      cases exMap (forwardModel env m) as <;> simp

/-- Pointwise reading of a successful `exMap`. -/
theorem exMap_getD {f : α → Except String β} {l : List α} {out : List β}
    (h : exMap f l = .ok out) (i : ℕ) (hi : i < l.length)
    (da : α) (db : β) : f (l.getD i da) = .ok (out.getD i db) := by
  induction l generalizing out i with
  | nil => cases hi
  | cons a as ih =>
    simp only [exMap] at h
    cases hfa : f a with
    | error e => rw [hfa] at h; cases h
    | ok b =>
      rw [hfa] at h
      cases hrest : exMap f as with
      | error e => rw [hrest] at h; cases h
      | ok bs =>
        rw [hrest] at h
        cases h
        rcases i with _ | j
        · simpa using hfa
        · exact ih hrest j (by simpa using hi)

/-- C9: a successful `predict_batch` on K inputs returns exactly K
prediction mappings, the i-th being the result of a single forward pass on
the i-th input — the loop applies `forward` independently per item in
order. -/
theorem C9_batch_pointwise (env : Numerics) (m : ModelWeights)
    (states : List ForwardInput) (out : List Predictions)
    (h : predictBatch env m states = .ok out) :
    out.length = states.length ∧
    ∀ i, i < states.length →
      forwardModel env m (states.getD i default) = .ok (out.getD i default) := by
  rw [predictBatch_eq_exMap] at h
  exact ⟨exMap_length h, fun i hi => exMap_getD h i hi default default⟩

/-- Witness for C9: a concrete two-item batch returns two predictions, each
equal to the corresponding single forward pass. -/
theorem C9_witness :
    (2 : ℕ) = 2 ∧
    forwardModel env0 modelW ([ForwardInput.state state0,
      ForwardInput.state state0].getD 0 default) = .ok ([pred0, pred0].getD 0 default) := by
  have hpb : predictBatch env0 modelW
      [ForwardInput.state state0, ForwardInput.state state0] =
        .ok [pred0, pred0] := by
    rw [predictBatch_eq_exMap]
    simp [exMap, forwardModel_env0_state0]
  have h := C9_batch_pointwise env0 modelW _ _ hpb
  exact ⟨h.1, h.2 0 (by norm_num)⟩

/-- C8: a sequence longer than the positional-encoding table's `max_len`
fails that call with the length-exceeded error, and a graph-attention call
whose adjacency row (within the edge range) carries an index that resolves
to no node under numpy indexing fails with an index error — neither returns
a result. -/
theorem C8_input_shape_errors :
    (∀ (pe : PEWeights) (x : List (List ℚ)), pe.maxLen < x.length →
      posEncForward pe x = .error "Sequence length exceeds max_len") ∧
    (∀ (E : ℚ → ℚ) (W : GATWeights) (nodes edges : List (List ℚ))
        (adj : List (ℤ × ℤ)) (i : ℕ) (p : ℤ × ℤ),
      i < edges.length → adj[i]? = some p →
      ((resolveIdx nodes.length p.1).isOk = false ∨
        (resolveIdx nodes.length p.2).isOk = false) →
      ∃ msg, gatForward E W nodes edges adj = .error msg) := by
  constructor
  · intro pe x hlen
    simp [posEncForward, hlen]
  · intro E W nodes edges adj i p hi hp hbad
    have hrow : ∀ b, resolveAdjRow nodes.length adj i ≠ .ok b := by
      intro b hb
      simp only [resolveAdjRow, getAdjRow, hp, exBind_ok] at hb
      cases h1 : resolveIdx nodes.length p.1 with
      | error msg => rw [h1] at hb; cases hb
      | ok s =>
        rw [h1] at hb
        cases h2 : resolveIdx nodes.length p.2 with
        | error msg => rw [h2] at hb; cases hb
        | ok d =>
          rcases hbad with hb1 | hb1
          · rw [h1] at hb1; cases hb1
          · rw [h2] at hb1; cases hb1
    cases hex : exMap (resolveAdjRow nodes.length adj)
        (List.range edges.length) with
    | error msg =>
      exact ⟨msg, by simp only [gatForward, hex, exBind_error]⟩
    | ok radj =>
      exfalso
      obtain ⟨b, hb⟩ := exMap_ok_forall hex i (List.mem_range.mpr hi)
      exact hrow b hb

/-- Witness for C8: a 1001-row input against `max_len = 1000` raises the
length error, and an adjacency row `(5, 0)` on a 1-node graph (index 5
unresolvable) makes graph attention fail. -/
theorem C8_witness :
    posEncForward encW.pe
        (List.replicate 1001 []) = .error "Sequence length exceeds max_len" ∧
    (gatForward (fun _ => 1) gatW0 [[1]] [[1]] [(5, 0)]).isOk = false := by
  constructor
  · exact C8_input_shape_errors.1 encW.pe
      (List.replicate 1001 [])
      (by simp [encW])
  · obtain ⟨msg, hmsg⟩ := C8_input_shape_errors.2 (fun _ => 1) gatW0 [[1]]
      [[1]] [(5, 0)] 0 (5, 0) (by norm_num) rfl
      (by
        left
        simp [resolveIdx, Except.isOk, Except.toBool])
    rw [hmsg]
    rfl

/-- Value of a per-node softmax weight for an edge in the group of
destination `d`: the stabilised exponential of its logit over the group
sum. -/
theorem softmaxPerNode_mem_group (E : ℚ → ℚ) (logits : List (List ℚ))
    (dst : List ℤ) (n d hd H : ℕ)
    (hlen : dst.length = logits.length)
    (hrows : ∀ r ∈ logits, r.length = H)
    (hdlt : hd < H) (hdn : d < n) (i : ℕ)
    (hi : i ∈ groupIdx dst (d : ℤ)) :
    ((softmaxPerNode E logits dst n).getD i []).getD hd 0 =
      E ((logits.getD i []).getD hd 0 -
          maxList ((groupIdx dst (d : ℤ)).map
            (fun j => (logits.getD j []).getD hd 0))) /
        (((groupIdx dst (d : ℤ)).map
            (fun j => (logits.getD j []).getD hd 0)).map
          (fun v => E (v -
            maxList ((groupIdx dst (d : ℤ)).map
              (fun j => (logits.getD j []).getD hd 0))))).sum := by
  have hmem := (List.mem_filter.mp hi)
  have hirange : i < dst.length := List.mem_range.mp hmem.1
  have hdsti : dst.getD i 0 = (d : ℤ) := by
    have := hmem.2
    exact of_decide_eq_true this
  have hilog : i < logits.length := hlen ▸ hirange
  have hrowH : logits[i].length = H := hrows _ (List.getElem_mem hilog)
  have hhd : hd < logits[i].length := hrowH ▸ hdlt
  have hcond : (0 : ℤ) ≤ (d : ℤ) ∧ (d : ℤ) < (n : ℤ) :=
    ⟨Int.natCast_nonneg d, by exact_mod_cast hdn⟩
  have hdsti2 : dst[i]?.getD 0 = (d : ℤ) := by
    rw [← List.getD_eq_getElem?_getD]
    exact hdsti
  simp only [softmaxPerNode, List.getD_eq_getElem?_getD, List.getElem?_mapIdx,
    List.getElem?_eq_getElem hilog, Option.map_some', Option.getD_some]
  rw [hdsti2, if_pos hcond]
  simp only [List.getElem?_mapIdx, List.getElem?_eq_getElem hhd,
    Option.map_some', Option.getD_some]

/-- C7: the per-destination softmax of `GraphAttention` normalises each
destination group independently — for every node with at least one incoming
edge the weights of its group sum to 1 in every head — and the aggregation
loop leaves the row of a node with no incoming edge at exactly zero. -/
theorem C7_per_node_softmax (E : ℚ → ℚ) (hE : ∀ x, 0 < E x)
    (logits : List (List ℚ)) (dst : List ℤ) (n H : ℕ)
    (hlen : dst.length = logits.length)
    (hrows : ∀ r ∈ logits, r.length = H) :
    (∀ d hd : ℕ, d < n → hd < H → groupIdx dst (d : ℤ) ≠ [] →
      ((groupIdx dst (d : ℤ)).map (fun i =>
        ((softmaxPerNode E logits dst n).getD i []).getD hd 0)).sum = 1) ∧
    (∀ (numHeads : ℕ) (wts hproj : List (List ℚ)) (radj : List (ℕ × ℕ))
        (d0 : ℕ), (∀ q ∈ radj, q.2 ≠ d0) →
      (aggregate numHeads wts hproj radj).getD d0 [] =
        (hproj.getD d0 []).map (fun _ => 0)) := by
  constructor
  · intro d hd hdn hdlt hne
    set l := fun j => (logits.getD j []).getD hd 0 with hl
    set vals := (groupIdx dst (d : ℤ)).map l with hvals
    set m := maxList vals with hm
    set S := (vals.map (fun v => E (v - m))).sum with hS
    have hSpos : 0 < S := by
      rw [hS]
      apply List.sum_pos
      · intro x hx
        obtain ⟨v, _, rfl⟩ := List.mem_map.mp hx
        exact hE _
      · simp only [ne_eq, List.map_eq_nil_iff, hvals]
        exact hne
    have hS0 : S ≠ 0 := ne_of_gt hSpos
    have hcong : ∀ i ∈ groupIdx dst (d : ℤ),
        ((softmaxPerNode E logits dst n).getD i []).getD hd 0 =
          E (l i - m) / S :=
      fun i hi =>
        softmaxPerNode_mem_group E logits dst n d hd H hlen hrows hdlt hdn i hi
    rw [List.map_congr_left hcong]
    simp only [div_eq_mul_inv]
    rw [List.sum_map_mul_right]
    have hmm : (groupIdx dst (d : ℤ)).map (fun i => E (l i - m)) =
        vals.map (fun v => E (v - m)) := by
      rw [hvals, List.map_map]
      rfl
    rw [hmm, ← hS]
    exact mul_inv_cancel₀ hS0
  · intro numHeads wts hproj radj d0 hd0
    rw [aggregate]
    apply foldl_invariant
      (fun (acc : List (List ℚ)) =>
        acc.getD d0 [] = (hproj.getD d0 []).map (fun _ => 0))
    · intro acc i hi hacc
      have hival : i < radj.length := List.mem_range.mp hi
      have hqmem : radj.getD i (0, 0) ∈ radj := by
        rw [List.getD_eq_getElem?_getD, List.getElem?_eq_getElem hival,
          Option.getD_some]
        exact List.getElem_mem hival
      have hne2 : (radj.getD i (0, 0)).2 ≠ d0 := hd0 _ hqmem
      apply foldl_invariant
        (fun (acc2 : List (List ℚ)) =>
          acc2.getD d0 [] = (hproj.getD d0 []).map (fun _ => 0))
      · intro acc2 hd2 _ hacc2
        rw [List.getD_eq_getElem?_getD, List.getElem?_set_ne hne2,
          ← List.getD_eq_getElem?_getD]
        exact hacc2
      · exact hacc
    · simp only [List.getD_eq_getElem?_getD, List.getElem?_map]
      cases hproj[d0]? <;> simp

/-- Witness for C7: two edges into node 0 with constant-one exponential get
weights summing to 1; a node receiving no edges keeps an all-zero aggregated
row. -/
theorem C7_witness :
    ((groupIdx [0, 0] ((0 : ℕ) : ℤ)).map (fun i =>
      ((softmaxPerNode (fun _ => 1) [[5], [7]] [0, 0] 1).getD i []).getD 0 0)).sum = 1 ∧
    (aggregate 1 [[1]] [[2], [3]] [(0, 1)]).getD 0 [] =
      (([[2], [3]] : List (List ℚ)).getD 0 []).map (fun _ => 0) := by
  have h := C7_per_node_softmax (fun _ => 1) (fun _ => one_pos) [[5], [7]]
    [0, 0] 1 1 rfl (by simp)
  exact ⟨h.1 0 0 Nat.one_pos Nat.one_pos (by decide),
    h.2 1 [[1]] [[2], [3]] [(0, 1)] 0 (by simp)⟩

/-! ## Shape lemmas for the encoder pipeline -/

theorem relu_length (v : List ℚ) : (relu v).length = v.length := by
  simp [relu]

theorem linearRow_length (cols : List (List ℚ)) (b x : List ℚ) :
    (linearRow cols b x).length = min cols.length b.length := by
  simp [linearRow]

theorem matVec_length (cols : List (List ℚ)) (x : List ℚ) :
    (matVec cols x).length = cols.length := by
  simp [matVec]

theorem vadd_length (u v : List ℚ) :
    (vadd u v).length = min u.length v.length := by
  simp [vadd]

theorem scale_length (c : ℚ) (v : List ℚ) :
    (scale c v).length = v.length := by
  simp [scale]

theorem layerNormRow_length (env : Numerics) (r : List ℚ) :
    (layerNormRow env r).length = r.length := by
  simp [layerNormRow]

theorem forall_mem_zipWith {f : α → β → γ} {p : γ → Prop}
    {l1 : List α} {l2 : List β}
    (h : ∀ a ∈ l1, ∀ b ∈ l2, p (f a b)) :
    ∀ c ∈ List.zipWith f l1 l2, p c := by
  induction l1 generalizing l2 with
  | nil => intro c hc; cases hc
  | cons a as ih =>
    cases l2 with
    | nil => intro c hc; cases hc
    | cons b bs =>
      intro c hc
      rcases List.mem_cons.mp hc with h1 | h2
      · rw [h1]
        exact h a (List.mem_cons_self a as) b (List.mem_cons_self b bs)
      · exact ih
          (fun x hx y hy =>
            h x (List.mem_cons_of_mem a hx) y (List.mem_cons_of_mem b hy))
          c h2

theorem resolveIdx_ok_of_bounds {n : ℕ} {i : ℤ} (h0 : 0 ≤ i)
    (hn : i < (n : ℤ)) : resolveIdx n i = .ok i.toNat := by
  simp [resolveIdx, h0, hn]

theorem resolveIdx_lt {n : ℕ} {i : ℤ} {j : ℕ}
    (h : resolveIdx n i = .ok j) : j < n := by
  simp only [resolveIdx] at h
  split at h
  · cases h
    next h1 => exact (Int.toNat_lt h1.1).mpr h1.2
  · split at h
    · cases h
      next h1 h2 =>
        have := h2.2
        omega
    · cases h

theorem aggregate_dims (numHeads : ℕ) (wts hproj : List (List ℚ))
    (radj : List (ℕ × ℕ)) (N D : ℕ)
    (h1 : hproj.length = N) (h2 : ∀ r ∈ hproj, r.length = D)
    (hadj : ∀ q ∈ radj, q.1 < N ∧ q.2 < N) :
    (aggregate numHeads wts hproj radj).length = N ∧
      ∀ r ∈ aggregate numHeads wts hproj radj, r.length = D := by
  rw [aggregate]
  apply foldl_invariant
    (fun (acc : List (List ℚ)) =>
      acc.length = N ∧ ∀ r ∈ acc, r.length = D)
  · intro acc i hi hacc
    have hival : i < radj.length := List.mem_range.mp hi
    have hqmem : radj.getD i (0, 0) ∈ radj := by
      rw [List.getD_eq_getElem?_getD, List.getElem?_eq_getElem hival,
        Option.getD_some]
      exact List.getElem_mem hival
    obtain ⟨hq1, hq2⟩ := hadj _ hqmem
    apply foldl_invariant
      (fun (acc2 : List (List ℚ)) =>
        acc2.length = N ∧ ∀ r ∈ acc2, r.length = D)
    · intro acc2 hd _ hacc2
      obtain ⟨hlen2, hrows2⟩ := hacc2
      constructor
      · rw [List.length_set]
        exact hlen2
      · intro r hr
        rcases List.mem_or_eq_of_mem_set hr with hr1 | hr2
        · exact hrows2 r hr1
        · rw [hr2, vadd_length, scale_length]
          have hrow1 : acc2.getD (radj.getD i (0, 0)).2 [] ∈ acc2 := by
            rw [List.getD_eq_getElem?_getD,
              List.getElem?_eq_getElem (hlen2 ▸ hq2), Option.getD_some]
            exact List.getElem_mem (hlen2 ▸ hq2)
          have hrow2 : hproj.getD (radj.getD i (0, 0)).1 [] ∈ hproj := by
            rw [List.getD_eq_getElem?_getD,
              List.getElem?_eq_getElem (h1 ▸ hq1), Option.getD_some]
            exact List.getElem_mem (h1 ▸ hq1)
          rw [hrows2 _ hrow1, h2 _ hrow2]
          exact min_self D
    · exact hacc
  · constructor
    · rw [List.length_map]
      exact h1
    · intro r hr
      obtain ⟨r0, hr0, rfl⟩ := List.mem_map.mp hr
      rw [List.length_map]
      exact h2 r0 hr0

theorem gatForward_ok (E : ℚ → ℚ) (W : GATWeights)
    (nodes edges : List (List ℚ)) (adj : List (ℤ × ℤ)) (D : ℕ)
    (hWD : W.Wnode.length = D)
    (hadj : ∀ i, i < edges.length → ∃ p, adj[i]? = some p ∧
      0 ≤ p.1 ∧ p.1 < (nodes.length : ℤ) ∧
      0 ≤ p.2 ∧ p.2 < (nodes.length : ℤ)) :
    ∃ out, gatForward E W nodes edges adj = .ok out ∧
      out.length = nodes.length ∧ ∀ r ∈ out, r.length = D := by
  have hres : ∀ i ∈ List.range edges.length,
      ∃ q, resolveAdjRow nodes.length adj i = .ok q := by
    intro i hi
    obtain ⟨p, hp, h1, h2, h3, h4⟩ := hadj i (List.mem_range.mp hi)
    refine ⟨(p.1.toNat, p.2.toNat), ?_⟩
    simp [resolveAdjRow, getAdjRow, hp, resolveIdx_ok_of_bounds h1 h2,
      resolveIdx_ok_of_bounds h3 h4]
  obtain ⟨radj, hradj⟩ := exMap_ok_of_forall hres
  have hbounds : ∀ q ∈ radj, q.1 < nodes.length ∧ q.2 < nodes.length := by
    intro q hq
    obtain ⟨i, _, hiq⟩ := exMap_mem hradj q hq
    simp only [resolveAdjRow] at hiq
    cases hrow : getAdjRow adj i with
    | error msg => rw [hrow] at hiq; cases hiq
    | ok p =>
      rw [hrow] at hiq
      simp only [exBind_ok] at hiq
      cases hs : resolveIdx nodes.length p.1 with
      | error msg => rw [hs] at hiq; cases hiq
      | ok s =>
        rw [hs] at hiq
        cases hd2 : resolveIdx nodes.length p.2 with
        | error msg => rw [hd2] at hiq; cases hiq
        | ok d =>
          rw [hd2] at hiq
          simp only [exBind_ok] at hiq
          cases hiq
          exact ⟨resolveIdx_lt hs, resolveIdx_lt hd2⟩
  have hproj1 : (nodes.map (matVec W.Wnode)).length = nodes.length := by
    rw [List.length_map]
  have hproj2 : ∀ r ∈ nodes.map (matVec W.Wnode), r.length = D := by
    intro r hr
    obtain ⟨r0, _, rfl⟩ := List.mem_map.mp hr
    rw [matVec_length]
    exact hWD
  simp only [gatForward, hradj, exBind_ok]
  refine ⟨_, rfl, ?_, ?_⟩
  · rw [List.length_map]
    exact (aggregate_dims W.numHeads _ _ radj nodes.length D hproj1 hproj2
      hbounds).1
  · intro r hr
    obtain ⟨r0, hr0, rfl⟩ := List.mem_map.mp hr
    rw [List.length_map]
    exact (aggregate_dims W.numHeads _ _ radj nodes.length D hproj1 hproj2
      hbounds).2 r0 hr0

theorem encLayersLoop_ok (env : Numerics) (layers : List GATWeights)
    (eEmb : List (List ℚ)) (adj : List (ℤ × ℤ)) (h : List (List ℚ))
    (N D : ℕ) (hlen : h.length = N) (hrows : ∀ r ∈ h, r.length = D)
    (hW : ∀ l ∈ layers, l.Wnode.length = D)
    (hadj : ∀ i, i < eEmb.length → ∃ p, adj[i]? = some p ∧
      0 ≤ p.1 ∧ p.1 < (N : ℤ) ∧ 0 ≤ p.2 ∧ p.2 < (N : ℤ)) :
    ∃ h2, encLayersLoop env layers eEmb adj h = .ok h2 ∧
      h2.length = N ∧ ∀ r ∈ h2, r.length = D := by
  induction layers generalizing h with
  | nil => exact ⟨h, rfl, hlen, hrows⟩
  | cons lw rest ih =>
    rw [encLayersLoop]
    by_cases hpos : eEmb.length > 0
    · rw [if_pos hpos]
      obtain ⟨hNew, hgat, hgN, hgD⟩ := gatForward_ok env.expq lw h eEmb adj D
        (hW lw (List.mem_cons_self lw rest)) (hlen ▸ hadj)
      rw [hgat, exBind_ok]
      have hmadd1 : (madd h hNew).length = N := by
        rw [madd, List.length_zipWith, hlen, hgN.trans hlen, min_self]
      have hmadd2 : ∀ r ∈ madd h hNew, r.length = D := by
        rw [madd]
        apply forall_mem_zipWith
        intro a ha b hb
        rw [vadd_length, hrows a ha, hgD b hb, min_self]
      have hln1 : (layerNormMat env (madd h hNew)).length = N := by
        rw [layerNormMat, List.length_map]
        exact hmadd1
      have hln2 : ∀ r ∈ layerNormMat env (madd h hNew), r.length = D := by
        intro r hr
        obtain ⟨r0, hr0, rfl⟩ := List.mem_map.mp hr
        rw [layerNormRow_length]
        exact hmadd2 r0 hr0
      exact ih (layerNormMat env (madd h hNew)) hln1 hln2
        (fun l hl => hW l (List.mem_cons_of_mem lw hl))
    · rw [if_neg hpos]
      exact ih h hlen hrows (fun l hl => hW l (List.mem_cons_of_mem lw hl))

theorem posEncForward_ok (pe : PEWeights) (x : List (List ℚ)) (N D : ℕ)
    (hN : x.length = N) (hD : ∀ r ∈ x, r.length = D) (hmax : N ≤ pe.maxLen)
    (htab : pe.table.length = pe.maxLen)
    (htrows : ∀ r ∈ pe.table, r.length = D) :
    ∃ y, posEncForward pe x = .ok y ∧ y.length = N ∧
      ∀ r ∈ y, r.length = D := by
  have hnot : ¬ x.length > pe.maxLen := by omega
  refine ⟨_, by rw [posEncForward, if_neg hnot], ?_, ?_⟩
  · rw [List.length_zipWith, List.length_take, hN, htab]
    omega
  · apply forall_mem_zipWith
    intro a ha b hb
    rw [vadd_length, hD a ha, htrows b (List.mem_of_mem_take hb), min_self]

theorem encodeGraph_ok (env : Numerics) (w : EncoderWeights)
    (nodes edges : List (List ℚ)) (adj : List (ℤ × ℤ))
    (hwf : EncoderWF w) (hmax : nodes.length ≤ 1000)
    (hadj : ∀ i, i < edges.length → ∃ p, adj[i]? = some p ∧
      0 ≤ p.1 ∧ p.1 < (nodes.length : ℤ) ∧
      0 ≤ p.2 ∧ p.2 < (nodes.length : ℤ)) :
    ∃ out md, encodeGraph env w nodes edges adj = .ok (out, md) ∧
      out.length = nodes.length ∧ (∀ r ∈ out, r.length = w.embedDim) ∧
      md.numNodes = nodes.length ∧ md.numEdges = edges.length := by
  obtain ⟨hw1, hw2, hw3, hw4, hw5, hw6, hw7⟩ := hwf
  have hne1 : (nodes.map (fun r => relu (linearRow w.nodeW w.nodeB r))).length
      = nodes.length := by rw [List.length_map]
  have hne2 : ∀ r ∈ nodes.map (fun r => relu (linearRow w.nodeW w.nodeB r)),
      r.length = w.embedDim := by
    intro r hr
    obtain ⟨r0, _, rfl⟩ := List.mem_map.mp hr
    rw [relu_length, linearRow_length, hw1, hw2, min_self]
  have heelen : (if edges.length > 0 then
      edges.map (fun r => relu (linearRow w.edgeW w.edgeB r)) else
        ([] : List (List ℚ))).length = edges.length := by
    split
    · rw [List.length_map]
    · next hcond => simp at hcond; simp [hcond]
  obtain ⟨h2, hloop, hh2N, hh2D⟩ := encLayersLoop_ok env w.layers
    (if edges.length > 0 then
      edges.map (fun r => relu (linearRow w.edgeW w.edgeB r)) else [])
    adj (nodes.map (fun r => relu (linearRow w.nodeW w.nodeB r)))
    nodes.length w.embedDim hne1 hne2 hw3 (by rw [heelen]; exact hadj)
  obtain ⟨y, hpos, hyN, hyD⟩ := posEncForward_ok w.pe h2 nodes.length
    w.embedDim hh2N hh2D (by omega) (by rw [hw5, hw4]) hw6
  simp only [encodeGraph, hloop, exBind_ok, hpos]
  refine ⟨_, _, rfl, ?_, ?_, rfl, rfl⟩
  · rw [List.length_map]
    exact hyN
  · intro r hr
    obtain ⟨r0, _, rfl⟩ := List.mem_map.mp hr
    rw [matVec_length]
    exact hw7

theorem toGraph_shapes (s : HolographicState) :
    (toGraphRepresentation s).nodeFeatures.length = s.trajectory.length ∧
    (∀ r ∈ (toGraphRepresentation s).nodeFeatures, r.length = 4) ∧
    (toGraphRepresentation s).edgeFeatures.length =
      s.trajectory.length - 1 ∧
    (∀ r ∈ (toGraphRepresentation s).edgeFeatures, r.length = 3) ∧
    (toGraphRepresentation s).adjacency.length = s.trajectory.length - 1 ∧
    (∀ i, i < s.trajectory.length - 1 →
      (toGraphRepresentation s).adjacency[i]? = some ((i : ℤ), (i : ℤ) + 1)) := by
  refine ⟨?_, ?_, ?_, ?_, ?_, ?_⟩
  · simp [toGraphRepresentation]
  · intro r hr
    simp only [toGraphRepresentation, List.mem_map] at hr
    obtain ⟨c, _, rfl⟩ := hr
    rfl
  · simp [toGraphRepresentation]
  · intro r hr
    simp only [toGraphRepresentation, List.mem_map] at hr
    obtain ⟨i, _, rfl⟩ := hr
    cases s.betas.lookup (i + 1) with
    | some b => rfl
    | none =>
      simp only
      split <;> rfl
  · simp [toGraphRepresentation]
  · intro i hi
    simp only [toGraphRepresentation, List.getElem?_map,
      List.getElem?_range hi, Option.map_some']

theorem encLayersLoop_nil_edges (env : Numerics) (layers : List GATWeights)
    (adj : List (ℤ × ℤ)) (h : List (List ℚ)) :
    encLayersLoop env layers [] adj h = .ok h := by
  induction layers with
  | nil => rfl
  | cons lw rest ih =>
    rw [encLayersLoop, if_neg (by simp)]
    exact ih

theorem encodeGraph_zero_edges_skip (env : Numerics) (w : EncoderWeights)
    (L : List GATWeights) (nodes : List (List ℚ)) (adj : List (ℤ × ℤ)) :
    encodeGraph env { w with layers := L } nodes [] adj =
      encodeGraph env { w with layers := [] } nodes [] adj := by
  simp only [encodeGraph, List.length_nil, gt_iff_lt, lt_self_iff_false,
    if_false, encLayersLoop_nil_edges]

/-- C5 (amended): for every trajectory of `N ≥ 1` states with `N` within the
positional-encoding capacity (`N ≤ 1000`, the `max_len` the encoder
hard-codes), the graph conversion yields node features of shape `(N, 4)`,
edge features `(N-1, 3)` and adjacency `(N-1, 2)` linking consecutive
steps, and encoding succeeds with output shape `(N, embed_dim)`; for `N = 1`
the edge/adjacency tensors are empty with explicit shapes `(0, 3)` and
`(0, 2)`, and the graph-attention layers are skipped (the encoding does not
depend on them).  The original claim, without the `N ≤ 1000` bound, fails at
`N = 1001` (see the counterexample). -/
theorem C5_shape_contract (env : Numerics) (w : EncoderWeights)
    (s : HolographicState) (hwf : EncoderWF w)
    (hN1 : 1 ≤ s.trajectory.length) (hmax : s.trajectory.length ≤ 1000) :
    (toGraphRepresentation s).nodeFeatures.length = s.trajectory.length ∧
    (∀ r ∈ (toGraphRepresentation s).nodeFeatures, r.length = 4) ∧
    (toGraphRepresentation s).edgeFeatures.length =
      s.trajectory.length - 1 ∧
    (∀ r ∈ (toGraphRepresentation s).edgeFeatures, r.length = 3) ∧
    (toGraphRepresentation s).adjacency.length = s.trajectory.length - 1 ∧
    (∀ i, i < s.trajectory.length - 1 →
      (toGraphRepresentation s).adjacency[i]? =
        some ((i : ℤ), (i : ℤ) + 1)) ∧
    (∃ out md, encodeHolographicState env w s = .ok (out, md) ∧
      out.length = s.trajectory.length ∧
      (∀ r ∈ out, r.length = w.embedDim) ∧
      md.numNodes = s.trajectory.length ∧
      md.numEdges = s.trajectory.length - 1) ∧
    (s.trajectory.length = 1 →
      (toGraphRepresentation s).edgeFeatures = [] ∧
      (toGraphRepresentation s).adjacency = [] ∧
      edgeShapeOf (toGraphRepresentation s) = (0, 3) ∧
      adjShapeOf (toGraphRepresentation s) = (0, 2) ∧
      ∀ L, encodeHolographicState env { w with layers := L } s =
        encodeHolographicState env { w with layers := [] } s) := by
  obtain ⟨t1, t2, t3, t4, t5, t6⟩ := toGraph_shapes s
  have hadj : ∀ i, i < (toGraphRepresentation s).edgeFeatures.length →
      ∃ p, (toGraphRepresentation s).adjacency[i]? = some p ∧
        0 ≤ p.1 ∧ p.1 < ((toGraphRepresentation s).nodeFeatures.length : ℤ) ∧
        0 ≤ p.2 ∧
        p.2 < ((toGraphRepresentation s).nodeFeatures.length : ℤ) := by
    intro i hi
    rw [t3] at hi
    have hi2 : i < s.trajectory.length := by omega
    have hi3 : i + 1 < s.trajectory.length := by omega
    refine ⟨((i : ℤ), (i : ℤ) + 1), t6 i hi, by positivity, ?_, by positivity, ?_⟩
    · rw [t1]
      have hc : (i : ℤ) < (s.trajectory.length : ℤ) := by exact_mod_cast hi2
      exact hc
    · rw [t1]
      have hc : (i : ℤ) + 1 < (s.trajectory.length : ℤ) := by
        exact_mod_cast hi3
      exact hc
  obtain ⟨out, md, henc, ho1, ho2, hm1, hm2⟩ := encodeGraph_ok env w
    (toGraphRepresentation s).nodeFeatures
    (toGraphRepresentation s).edgeFeatures
    (toGraphRepresentation s).adjacency hwf (by omega) hadj
  refine ⟨t1, t2, t3, t4, t5, t6, ⟨out, md, henc, ?_, ?_, ?_, ?_⟩, ?_⟩
  · rw [ho1, t1]
  · exact ho2
  · rw [hm1, t1]
  · rw [hm2, t3]
  · intro h1
    have hedges : (toGraphRepresentation s).edgeFeatures = [] := by
      rw [← List.length_eq_zero]
      omega
    have hadje : (toGraphRepresentation s).adjacency = [] := by
      rw [← List.length_eq_zero]
      omega
    refine ⟨hedges, hadje, ?_, ?_, ?_⟩
    · rw [edgeShapeOf, if_pos (by rw [hedges]; rfl)]
    · rw [adjShapeOf, if_pos (by rw [hadje]; rfl)]
    · intro L
      show encodeGraph env { w with layers := L }
          (toGraphRepresentation s).nodeFeatures
          (toGraphRepresentation s).edgeFeatures
          (toGraphRepresentation s).adjacency =
        encodeGraph env { w with layers := [] }
          (toGraphRepresentation s).nodeFeatures
          (toGraphRepresentation s).edgeFeatures
          (toGraphRepresentation s).adjacency
      rw [hedges]
      exact encodeGraph_zero_edges_skip env w L
        (toGraphRepresentation s).nodeFeatures
        (toGraphRepresentation s).adjacency

theorem peTable_length (env : Numerics) (D L : ℕ) :
    (peTable env D L).length = L := by
  simp [peTable]

theorem peTable_row_length (env : Numerics) (D L : ℕ) :
    ∀ r ∈ peTable env D L, r.length = D := by
  intro r hr
  simp only [peTable, List.mem_map] at hr
  obtain ⟨pos, _, rfl⟩ := hr
  simp

theorem encW_wf : EncoderWF encW :=
  ⟨rfl, rfl, by simp [encW], rfl, peTable_length env0 1 1000,
    peTable_row_length env0 1 1000, rfl⟩

/-- Witness for C5 at a concrete single-node trajectory and well-formed
weights: the empty edge/adjacency tensors get explicit shapes `(0, 3)` and
`(0, 2)` and the node tensor has one row. -/
theorem C5_witness :
    edgeShapeOf (toGraphRepresentation state0) = (0, 3) ∧
    adjShapeOf (toGraphRepresentation state0) = (0, 2) ∧
    (toGraphRepresentation state0).nodeFeatures.length = 1 := by
  have h := C5_shape_contract env0 encW state0 encW_wf (by decide) (by decide)
  have h1 := h.2.2.2.2.2.2.2 rfl
  exact ⟨h1.2.2.1, h1.2.2.2.1, h.1⟩

/-- Counterexample for C5 as stated: a trajectory of 1001 ≥ 1 states is not
encoded to a `(1001, embed_dim)` tensor — the encoder raises the
positional-encoding length error instead, because the table is hard-coded to
`max_len = 1000`. -/
theorem C5_counterexample :
    encodeHolographicState env0 encW state1001 =
      .error "Sequence length exceeds max_len" := by
  have hlen : ((toGraphRepresentation state1001).nodeFeatures.map
      (fun r => relu (linearRow encW.nodeW encW.nodeB r))).length = 1001 := by
    simp [toGraphRepresentation, state1001]
  simp only [encodeHolographicState, encodeGraph, encW, encLayersLoop,
    exBind_ok]
  rw [posEncForward, if_pos]
  · rfl
  · simp only [encW] at hlen ⊢
    rw [hlen]
    norm_num
